import Mathlib

/-!
Verification of the antjs computer-algebra core (matrices, dense polynomials,
fractions) against its specification.  The TypeScript sources are embedded
shallowly: matrices are lists of rows, polynomials are coefficient lists
(index i holds the coefficient of x^i), machine bigints are `Int`, and code
that throws is modelled with `Option` (`none` = the call throws).  JS bigint
division truncates toward zero, so `Int.tdiv` is used wherever the source
divides.
-/

/-- Entry `A[i][j]` of a row-list matrix.  Out-of-range reads give the
default element, mirroring the in-bounds uses of the source (all source
accesses proved relevant here are in bounds). -/
def ent {α : Type} [Inhabited α] (A : List (List α)) (i j : Nat) : α :=
  (A.getD i []).getD j default

/-- Allocate an n×n array and fill entry (i,j) with `f i j` — the shape of
every nested fill loop in matrix.ts / part_000. -/
def mkMat {α : Type} (n : Nat) (f : Nat → Nat → α) : List (List α) :=
  (List.range n).map (fun i => (List.range n).map (fun j => f i j))

/-! ## Static polynomial engine (`class PolynomialMath`, bigint coefficients) -/

namespace PolynomialMath

/-- `deg(f) = f.length - 1` (a JS number, hence `Int`: the empty list has
degree −1). -/
def deg (f : List Int) : Int := (f.length : Int) - 1

/-- The zero polynomial of the static engine is the sentinel `[0n]`. -/
def zero : List Int := [0]

/-- The constant 1 polynomial. -/
def one : List Int := [1]

/-- x^n : n zero coefficients then a one. -/
def x (n : Nat) : List Int := (List.range n).map (fun _ => (0 : Int)) ++ [1]

/-- Schoolbook product: the source allocates `deg f + deg g + 1` slots and
accumulates `f[i] * g[j]` into slot `i + j`; slot `k` therefore holds the
convolution sum below.  (When both inputs are empty the source would throw
on `new Array(-1)`; no embedded call site reaches that corner.) -/
def mul (f g : List Int) : List Int :=
  (List.range (f.length + g.length - 1)).map (fun k =>
    ∑ i ∈ Finset.range f.length,
      if i ≤ k ∧ k - i < g.length then f.getD i 0 * g.getD (k - i) 0 else 0)

/-- Body of `add` once the operands are ordered with `f` at least as long:
add over the overlap, copy the tail of `f`.  (On two empty inputs the
source throws on `new Array(-1)`; that corner is modelled in the generic
engine `PolynomialMathR.add`, and no embedded call site of the static
engine reaches it.) -/
def addGe (f g : List Int) : List Int :=
  List.zipWith (· + ·) f g ++ f.drop g.length

/-- Sum: `if (n < m) return add(g, f);` then the ordered body. -/
def add (f g : List Int) : List Int :=
  if f.length < g.length then addGe g f else addGe f g

/-- Scale every coefficient by k. -/
def scale (f : List Int) (k : Int) : List Int := f.map (fun a => k * a)

/-- Difference: `add(f, scale(g, -1n))`. -/
def sub (f g : List Int) : List Int := add f (scale g (-1))

/-- The source body is `throw Error("unimplemented")`: the call never
returns a polynomial. -/
def fromString (_ : String) : Option (List Int) := none

end PolynomialMath

/-! ## Static matrix engine (`class MatrixMath`, bigint entries) -/

namespace MatrixMath

/-- The n×n zero matrix. -/
def zero (n : Nat) : List (List Int) := mkMat n (fun _ _ => 0)

/-- The n×n identity matrix: `zero(n)` with ones on the diagonal. -/
def one (n : Nat) : List (List Int) := mkMat n (fun i j => if i = j then 1 else 0)

/-- Matrix sum (the static engine sizes everything by `A.length`). -/
def add (A B : List (List Int)) : List (List Int) :=
  mkMat A.length (fun i j => ent A i j + ent B i j)

/-- `scale(A, k)` multiplies every entry by k. -/
def scale (A : List (List Int)) (k : Int) : List (List Int) :=
  mkMat A.length (fun i j => k * ent A i j)

/-- `sub(A, B) = add(A, scale(B, -1n))`. -/
def sub (A B : List (List Int)) : List (List Int) := add A (scale B (-1))

/-- Matrix product, triple loop accumulating `A[i][k] * B[k][j]`. -/
def mul (A B : List (List Int)) : List (List Int) :=
  mkMat A.length (fun i j => ∑ k ∈ Finset.range A.length, ent A i k * ent B k j)

/-- The (i,j) minor: drop row i and column j, shifting the later indices.
The generic engine's `Matrices.minor<T>` is the identical polymorphic code. -/
def minor {α : Type} [Inhabited α] (A : List (List α)) (i j : Nat) :
    List (List α) :=
  mkMat (A.length - 1) (fun r c =>
    ent A (if i ≤ r then r + 1 else r) (if j ≤ c then c + 1 else c))

/-- Cofactor-expansion determinant along column 0; a 1×1 matrix is its sole
entry, and (as in the JS loop) an empty matrix yields 0.  The recursion is
driven by a fuel argument so that the kernel can evaluate it; the dimension
strictly drops at every recursive call, so any fuel ≥ `A.length` computes
the cofactor expansion (see `detF_congr` / `det_expand`). -/
def detF : Nat → List (List Int) → Int
  | 0, _ => 0
  | fuel + 1, A =>
    if A.length = 1 then ent A 0 0
    else ∑ i ∈ Finset.range A.length, ent A i 0 * detF fuel (minor A i 0) * (-1) ^ i

/-- The determinant of the source: the recursion depth is the dimension. -/
def det (A : List (List Int)) : Int := detF A.length A

/-- Cofactor matrix: `C[i][j] = det(minor(A,i,j)) * (-1)^(i+j)`. -/
def cofactor (A : List (List Int)) : List (List Int) :=
  mkMat A.length (fun i j => det (minor A i j) * (-1) ^ (i + j))

/-- Transpose. -/
def transpose (A : List (List Int)) : List (List Int) :=
  mkMat A.length (fun i j => ent A j i)

/-- Adjugate-based inversion: requires `det(A) ∈ {1n, -1n}` (else the source
throws), then returns `transpose(scale(cofactor(A), det(A)))`. -/
def inverse (A : List (List Int)) : Option (List (List Int)) :=
  if det A = 1 ∨ det A = -1 then
    some (transpose (scale (cofactor A) (det A)))
  else none

end MatrixMath

/-! ## Algebraic contract (`Domain` interface of ring.ts) and the generic
polynomial engine (`function PolynomialMath<E>(R)`) -/

/-- The duck-typed coefficient contract: `add, sub, mul, zero, one, equal,
isUnit, int, bint` plus the `Module` scaling. -/
structure Domain (E : Type) where
  add : E → E → E
  sub : E → E → E
  mul : E → E → E
  zero : E
  one : E
  equal : E → E → Bool
  isUnit : E → Bool
  int : Int → E
  bint : Int → E
  scale : Int → E → E

/-- Modelled from the spec: the `Integers` / `BigIntMath`-backed integer
instance of the contract lives in math.ts, which is absent from src; §3 and
§4.1 fix its behaviour (exact arbitrary-precision integer arithmetic). -/
def IntD : Domain Int where
  add := (· + ·)
  sub := (· - ·)
  mul := (· * ·)
  zero := 0
  one := 1
  equal := fun a b => a == b
  isUnit := fun a => a == 1 || a == -1
  int := id
  bint := id
  scale := (· * ·)

/-- Ring laws the spec's contract demands of a coefficient domain (§3:
identities, commutativity, compatible subtraction and distribution). -/
structure Domain.Lawful {E : Type} (R : Domain E) : Prop where
  add_comm : ∀ a b, R.add a b = R.add b a
  one_mul : ∀ a, R.mul R.one a = a
  zero_mul : ∀ a, R.mul R.zero a = R.zero
  right_distrib : ∀ a b c, R.mul (R.add a b) c = R.add (R.mul a c) (R.mul b c)
  sub_add_cancel : ∀ a b, R.add (R.sub a b) b = a

namespace PolynomialMathR

/-- Degree, as in the static engine. -/
def deg {E : Type} (_R : Domain E) (f : List E) : Int := (f.length : Int) - 1

/-- The generic engine's zero polynomial is the empty sequence. -/
def zero {E : Type} (_R : Domain E) : List E := []

/-- The constant one polynomial `[R.one()]`. -/
def one {E : Type} (R : Domain E) : List E := [R.one]

/-- x^n. -/
def x {E : Type} (R : Domain E) (n : Nat) : List E :=
  (List.range n).map (fun _ => R.zero) ++ [R.one]

/-- Schoolbook product with `R.add`/`R.mul` accumulation into a
`R.zero()`-filled array of `deg f + deg g + 1` slots. -/
def mul {E : Type} (R : Domain E) (f g : List E) : List E :=
  (List.range (f.length + g.length - 1)).map (fun k =>
    (List.range f.length).foldl (fun acc i =>
      if i ≤ k ∧ k - i < g.length then
        R.add acc (R.mul (f.getD i R.zero) (g.getD (k - i) R.zero))
      else acc) R.zero)

/-- Body of `add` once the operands are ordered with `f` at least as long:
`h[i] = R.add(f[i], g[i])` over the overlap, then the tail of `f`.  When
both operands are empty the source executes `new Array(-1)` and throws a
RangeError: that is the `none` branch. -/
def addGe {E : Type} (R : Domain E) (f g : List E) : Option (List E) :=
  if f.length = 0 then none
  else some (List.zipWith R.add f g ++ f.drop g.length)

/-- Sum: `if (n < m) return add(g, f);` then the ordered body. -/
def add {E : Type} (R : Domain E) (f g : List E) : Option (List E) :=
  if f.length < g.length then addGe R g f else addGe R f g

/-- Scale: `f.map(a => R.mul(k, a))`. -/
def scale {E : Type} (R : Domain E) (f : List E) (k : E) : List E :=
  f.map (fun a => R.mul k a)

/-- Difference: `add(f, scale(g, R.sub(R.zero(), R.one())))`. -/
def sub {E : Type} (R : Domain E) (f g : List E) : Option (List E) :=
  add R f (scale R g (R.sub R.zero R.one))

end PolynomialMathR

/-! ## JS value universe and the generic matrix engine (`class Matrices<E>`)

matrix.ts is dynamically typed: `zero()` writes the bigint literal `0n`
into an untyped array whatever the coefficient ring is.  To embed that
honestly the generic matrix engine works over a small universe of JS
values (bigints and arrays), with the coefficient contract as a `Domain`
structure on that universe. -/

inductive JSVal where
  | bint : Int → JSVal
  | arr : List JSVal → JSVal

instance : Inhabited JSVal := ⟨JSVal.bint 0⟩

/-! ## Number-theory kernel and fractions (fraction.ts) -/

namespace BigIntMath

/-- Modelled from the spec: `BigIntMath.gcd` / `Integers.gcd` live in
math.ts, which is absent from src; §4.1 fixes it as the non-negative gcd
computed by Euclidean reduction. -/
def gcd (a b : Int) : Int := (Int.gcd a b : Int)

/-- Modelled from the spec: `BigIntMath.lcm` (math.ts, absent from src),
the straightforward n-ary reduction of §4.1; binary case. -/
def lcm (a b : Int) : Int := (Int.lcm a b : Int)

end BigIntMath

namespace Rationals

/-- The constant 1 fraction. -/
def one : Int × Int := (1, 1)

/-- The constant 0 fraction. -/
def zero : Int × Int := (0, 1)

/-- Divide numerator and denominator by their gcd.  When both are zero the
gcd is zero and the JS division `0n / 0n` throws a RangeError: `none`.
(JS bigint division truncates, hence `Int.tdiv`; the divisions here are
exact.)  `BigFractionMath` in the same file is the identical code. -/
def reduce (x : Int × Int) : Option (Int × Int) :=
  let d := BigIntMath.gcd x.1 x.2
  if d = 0 then none else some (x.1.tdiv d, x.2.tdiv d)

/-- Sum `[x0*y1 + x1*y0, x1*y1]`, reduced. -/
def add (x y : Int × Int) : Option (Int × Int) :=
  reduce (x.1 * y.2 + x.2 * y.1, x.2 * y.2)

/-- Product `[x0*y0, x1*y1]`, reduced. -/
def mul (x y : Int × Int) : Option (Int × Int) :=
  reduce (x.1 * y.1, x.2 * y.2)

/-- Scaling `[k*x0, x1]`, reduced. -/
def scale (k : Int) (x : Int × Int) : Option (Int × Int) :=
  reduce (k * x.1, x.2)

/-- Difference `[x0*y1 - x1*y0, x1*y1]`, reduced. -/
def sub (x y : Int × Int) : Option (Int × Int) :=
  reduce (x.1 * y.2 - x.2 * y.1, x.2 * y.2)

/-- Quotient `[x0*y1, x1*y0]`, reduced. -/
def div (x y : Int × Int) : Option (Int × Int) :=
  reduce (x.1 * y.2, x.2 * y.1)

end Rationals

/-- Read a fraction value out of the JS universe.  Ill-shaped input would
make the JS fraction code throw; the fallback is never reached in the
claims below. -/
def fracOfJS : JSVal → Int × Int
  | .arr [.bint a, .bint b] => (a, b)
  | _ => (0, 0)

/-- Inject a fraction into the JS universe. -/
def jsOfFrac (x : Int × Int) : JSVal := .arr [.bint x.1, .bint x.2]

/-- The fraction field (`class Rationals` of fraction.ts) as a coefficient
domain on JS values.  fraction.ts does not define `equal`, `isUnit`, `int`
or `bint`; those four fields are Modelled from the spec contract (§6 and
§3: equality, invertibility of non-zero fractions, integer injection).
Only `zero` and `one` matter for the claims below. -/
def RationalsJS : Domain JSVal where
  add := fun x y => jsOfFrac ((Rationals.add (fracOfJS x) (fracOfJS y)).getD (0, 0))
  sub := fun x y => jsOfFrac ((Rationals.sub (fracOfJS x) (fracOfJS y)).getD (0, 0))
  mul := fun x y => jsOfFrac ((Rationals.mul (fracOfJS x) (fracOfJS y)).getD (0, 0))
  zero := jsOfFrac Rationals.zero
  one := jsOfFrac Rationals.one
  equal := fun x y => fracOfJS x == fracOfJS y
  isUnit := fun x => (fracOfJS x).1 != 0
  int := fun k => jsOfFrac (k, 1)
  bint := fun k => jsOfFrac (k, 1)
  scale := fun k x => jsOfFrac ((Rationals.scale k (fracOfJS x)).getD (0, 0))

namespace Matrices

/-- `zero()` of the generic engine: the fill loop writes the bigint
literal `0n` (matrix.ts line 24), not `R.zero()`. -/
def zero (_R : Domain JSVal) (n : Nat) : List (List JSVal) :=
  mkMat n (fun _ _ => JSVal.bint 0)

/-- `one()`: `zero()` with `R.one()` placed on the diagonal. -/
def one (R : Domain JSVal) (n : Nat) : List (List JSVal) :=
  mkMat n (fun i j => if i = j then R.one else JSVal.bint 0)

/-- `bint(k)`: builds `one()` and overwrites the diagonal with
`R.bint(k)`, but the method has no return statement, so the call evaluates
to undefined (`none`). -/
def bint (R : Domain JSVal) (n : Nat) (k : Int) : Option (List (List JSVal)) :=
  let A := mkMat n (fun i j => if i = j then R.bint k else JSVal.bint 0)
  none

/-- `int(k) = this.bint(BigInt(k))`. -/
def int (R : Domain JSVal) (n : Nat) (k : Int) : Option (List (List JSVal)) :=
  bint R n k

/-- The recursive determinant closure inside
`Matrices.characteristicPolynomial`, instantiated at the integer
coefficient ring (entries are integer polynomials).  Faithful to the
source bug: the expansion loop runs `i` up to the ENGINE dimension
`this.n` (here `nn`), not the current matrix size `A.length`, so on the
(n−1)-sized minors the row read `A[i][0]` goes past the end and throws a
TypeError (`none`).  The polynomial arithmetic comes from the
`Polynomials` instance class, absent from src: Modelled from the spec
§4.2 as the generic polynomial engine over the integers, with
`fromElement(a)` the constant polynomial `[a]` and `int(k)` the constant
polynomial of `k`.  The recursion is fuel-driven for kernel evaluation;
any fuel ≥ `A.length` is exact. -/
def charDetF (nn : Nat) : Nat → List (List (List Int)) → Option (List Int)
  | 0, _ => none
  | fuel + 1, A =>
    if A.length ≤ 1 then (A[0]?).bind (fun r => r[0]?)
    else
      (List.range nn).foldl (fun f? i => do
          let f ← f?
          let row ← A[i]?
          let a ← row[0]?
          let dm ← charDetF nn fuel (MatrixMath.minor A i 0)
          PolynomialMathR.add IntD f
            (PolynomialMathR.mul IntD (PolynomialMathR.mul IntD a dm) [IntD.int ((-1) ^ i)]))
        (some (PolynomialMathR.zero IntD))

/-- `characteristicPolynomial(A)` of the generic engine at the integer
ring and engine dimension n: builds the matrix of polynomials
`B[i][j] = polynomials.sub(i==j ? x(1) : zero(), fromElement(A[i][j]))`
and runs the (buggy) determinant closure above.  The `sub` here always
succeeds (its second operand is non-empty); `.getD []` discharges the
option. -/
def characteristicPolynomialZ (n : Nat) (A : List (List Int)) : Option (List Int) :=
  let B := mkMat n (fun i j =>
    (PolynomialMathR.sub IntD
      (if i = j then PolynomialMathR.x IntD 1 else PolynomialMathR.zero IntD)
      [ent A i j]).getD [])
  charDetF n n B

end Matrices

/-! ## Static characteristic polynomial (`MatrixMath.charPoly`) -/

namespace MatrixMath

/-- The recursive determinant closure inside `charPoly` (part_000): the
CORRECT sibling of the generic one — its loop bound is the local
`A.length`.  Entries are integer polynomials, combined with the static
polynomial engine.  Fuel-driven recursion; any fuel ≥ `A.length` is
exact. -/
def charPolyDetF : Nat → List (List (List Int)) → List Int
  | 0, _ => []
  | fuel + 1, A =>
    if A.length ≤ 1 then (A.getD 0 []).getD 0 []
    else
      (List.range A.length).foldl (fun f i =>
          PolynomialMath.add f (PolynomialMath.scale
            (PolynomialMath.mul (ent A i 0) (charPolyDetF fuel (minor A i 0)))
            ((-1) ^ i)))
        PolynomialMath.zero

/-- `charPoly(A)`: the matrix with `[-A[i][j], 1n]` on the diagonal and
`[-A[i][j]]` off it, then the polynomial cofactor expansion. -/
def charPoly (A : List (List Int)) : List Int :=
  charPolyDetF A.length (mkMat A.length (fun i j =>
    if i = j then [-(ent A i j), 1] else [-(ent A i j)]))

end MatrixMath

/-! ## Fraction-free LU decomposition (`MatrixMath.luDecomposition`) -/

namespace MatrixMath

/-- Write a single entry `M[i][j] := v`. -/
def updEnt (M : List (List Int)) (i j : Nat) (v : Int) : List (List Int) :=
  M.set i ((M.getD i []).set j v)

/-- The row swap of the source: it copies only the entries in columns
`j ≥ c` between rows `k` and `kp` (columns before `c` stay put). -/
def partialSwap (M : List (List Int)) (k kp c : Nat) : List (List Int) :=
  let rk := M.getD k []
  let rkp := M.getD kp []
  (M.set k (rk.take c ++ rkp.drop c)).set kp (rkp.take c ++ rk.drop c)

/-- Pivot search: the first row below k with a non-zero entry in column
k. -/
def findPivot (U : List (List Int)) (k n : Nat) : Option Nat :=
  ((List.range n).drop (k + 1)).find? (fun i => decide (ent U i k ≠ 0))

/-- One iteration of the elimination loop (step k): pivot if `U[k][k]` is
zero (throwing — `none` — when no pivot exists), set `L[k][k]` and
`D[k][k] = oldpivot * U[k][k]`, and do the fraction-free update of the
rows below k.  JS bigint division truncates: `Int.tdiv`. -/
def luStep (n m : Nat)
    (st : List (List Int) × List (List Int) × List (List Int) × List (List Int) × Int)
    (k : Nat) :
    Option (List (List Int) × List (List Int) × List (List Int) × List (List Int) × Int) :=
  let (U, L, D, P, oldpivot) := st
  let pivoted :=
    if ent U k k = 0 then
      match findPivot U k n with
      | none => none
      | some kp => some (partialSwap U k kp k, partialSwap P k kp k)
    else some (U, P)
  match pivoted with
  | none => none
  | some (U, P) =>
    let L := updEnt L k k (ent U k k)
    let D := updEnt D k k (oldpivot * ent U k k)
    let Ukk := ent U k k
    let UL := ((List.range n).drop (k + 1)).foldl
      (fun (UL : List (List Int) × List (List Int)) i =>
        let (U, L) := UL
        let L := updEnt L i k (ent U i k)
        let Uik := ent U i k
        let U := ((List.range m).drop (k + 1)).foldl (fun U j =>
            updEnt U i j (Int.tdiv (Ukk * ent U i j - ent U k j * Uik) oldpivot)) U
        let U := updEnt U i k 0
        (U, L)) (U, L)
    some (UL.1, UL.2, D, P, Ukk)

/-- `luDecomposition(A)`: `U` starts as a copy of A, `L` and `P` as the
identity, `D` as zero (the source re-zeroes its diagonal, a no-op),
`oldpivot` as 1; after the loop the last diagonal entry of D is
overwritten with the final pivot, and the source returns the array
`[P, L, U, D]` — in that order. -/
def luDecomposition (A : List (List Int)) :
    Option (List (List Int) × List (List Int) × List (List Int) × List (List Int)) :=
  let U := A
  let n := U.length
  let m := (U.getD 0 []).length
  let L := one n
  let D := zero n
  let P := one n
  match (List.range n).foldl (fun st? k => st?.bind (fun st => luStep n m st k))
      (some (U, L, D, P, 1)) with
  | none => none
  | some (U, L, D, P, oldpivot) =>
    some (P, L, U, updEnt D (n - 1) (n - 1) oldpivot)

end MatrixMath

/-! ## The polynomial notation parser the spec describes

`fromString` throws "unimplemented" in the source; the spec (§4.2) still
fixes the algorithm.  The definitions below are Modelled from the spec and
exist only to check the claimed examples against that description. -/

namespace PolynomialMath

/-- Modelled from the spec: split on the regex `/\s(?=[+-])/` — cut at
every space that is followed by a sign; the space is consumed, the sign
starts the next term. -/
def splitTerms : List Char → List Char → List (List Char)
  | [], acc => [acc.reverse]
  | ' ' :: c :: rest, acc =>
    if c = '+' ∨ c = '-' then acc.reverse :: splitTerms (c :: rest) []
    else splitTerms (c :: rest) (' ' :: acc)
  | c :: rest, acc => splitTerms rest (c :: acc)

/-- Digits to a natural number. -/
def parseNat (l : List Char) : Nat :=
  l.foldl (fun a c => 10 * a + (c.toNat - 48)) 0

/-- Modelled from the spec: one term — optional sign, optional `c*`
coefficient prefix (default ±1 when `x` is present), degree from an
optional `^k` suffix (default 1 with `x`, else 0), or a bare integer. -/
def parseTerm (t : List Char) : Int × Nat :=
  let t := t.filter (fun c => c ≠ ' ')
  let sr : Int × List Char :=
    match t with
    | '-' :: r => (-1, r)
    | '+' :: r => (1, r)
    | _ => (1, t)
  let s := sr.1
  let r := sr.2
  if r.contains 'x' then
    let coefDigits := r.takeWhile (fun c => c.isDigit)
    let coef : Int := if coefDigits = [] then 1 else (parseNat coefDigits : Int)
    let deg : Nat :=
      match r.dropWhile (fun c => c ≠ '^') with
      | '^' :: ds => parseNat ds
      | _ => 1
    (s * coef, deg)
  else (s * (parseNat r : Int), 0)

/-- Modelled from the spec: the whole §4.2 parse — split into terms and
collect the coefficient of x^i at index i. -/
def fromStringSpec (s : String) : List Int :=
  let terms := (splitTerms s.toList []).map parseTerm
  let maxd := (terms.map Prod.snd).foldl Nat.max 0
  (List.range (maxd + 1)).map (fun i =>
    ((terms.filter (fun t => t.2 = i)).map Prod.fst).sum)

end PolynomialMath

/-! ## Transfer to Mathlib matrices

To settle the algebraic claims about `MatrixMath` (associativity of `mul`,
the adjugate-based inversion) the list matrices are read off as Mathlib
matrices over ℤ and the cofactor-expansion determinant is proved equal to
`Matrix.det`. -/

/-- A row-list matrix is square of size n. -/
def SquareMat (n : Nat) (A : List (List Int)) : Prop :=
  A.length = n ∧ ∀ r ∈ A, r.length = n

/-- The Mathlib matrix holding the same entries. -/
def toMat (n : Nat) (A : List (List Int)) : Matrix (Fin n) (Fin n) Int :=
  Matrix.of (fun i j => ent A (i : Nat) (j : Nat))

/-! ## Lemmas, sanity checks and the claim theorems -/

@[simp] theorem length_mkMat {α : Type} (n : Nat) (f : Nat → Nat → α) :
    (mkMat n f).length = n := by
  simp [mkMat]

theorem getElem?_mkMat {α : Type} (n : Nat) (f : Nat → Nat → α) (i : Nat)
    (hi : i < n) : (mkMat n f)[i]? = some ((List.range n).map (fun j => f i j)) := by
  simp [mkMat, List.getElem?_map, List.getElem?_range hi]

theorem ent_mkMat {α : Type} [Inhabited α] (n : Nat) (f : Nat → Nat → α)
    (i j : Nat) (hi : i < n) (hj : j < n) : ent (mkMat n f) i j = f i j := by
  simp [ent, List.getD_eq_getElem?_getD, getElem?_mkMat n f i hi,
    List.getElem?_map, List.getElem?_range hj]

namespace MatrixMath

@[simp] theorem length_minor {α : Type} [Inhabited α]
    (A : List (List α)) (i j : Nat) : (minor A i j).length = A.length - 1 := by
  simp [minor]

theorem detF_succ (fuel : Nat) (A : List (List Int)) :
    detF (fuel + 1) A =
      if A.length = 1 then ent A 0 0
      else ∑ i ∈ Finset.range A.length, ent A i 0 * detF fuel (minor A i 0) * (-1) ^ i := rfl

theorem detF_congr (fuel fuel₂ : Nat) (A : List (List Int))
    (h : A.length ≤ fuel) (h₂ : A.length ≤ fuel₂) : detF fuel A = detF fuel₂ A := by
  induction fuel using Nat.strong_induction_on generalizing fuel₂ A with
  | _ fuel ih =>
  rcases Nat.eq_zero_or_pos A.length with hA | hA
  · have z : ∀ fl, detF fl A = 0 := by
      intro fl
      cases fl with
      | zero => rfl
      | succ f =>
        rw [detF_succ, if_neg (by omega), hA]
        simp
    rw [z, z]
  · cases fuel with
    | zero => omega
    | succ f =>
      cases fuel₂ with
      | zero => omega
      | succ f₂ =>
        rw [detF_succ, detF_succ]
        rcases Nat.lt_or_ge A.length 2 with h2 | h2
        · have : A.length = 1 := by omega
          rw [if_pos this, if_pos this]
        · rw [if_neg (by omega), if_neg (by omega)]
          refine Finset.sum_congr rfl (fun i _ => ?_)
          have hm : (minor A i 0).length = A.length - 1 := length_minor A i 0
          have := ih f (Nat.lt_succ_self f) f₂ (minor A i 0) (by omega) (by omega)
          rw [this]

/-- The defining cofactor expansion of `det`, with the fuel discharged. -/
theorem det_expand (A : List (List Int)) (m : Nat) (hA : A.length = m + 2) :
    det A = ∑ i ∈ Finset.range A.length, ent A i 0 * det (minor A i 0) * (-1) ^ i := by
  have h1 : det A = detF (m + 1 + 1) A := by
    rw [det, detF_congr A.length (m + 1 + 1) A (le_refl _) (by omega)]
  rw [h1, detF_succ, if_neg (by omega)]
  refine Finset.sum_congr rfl (fun i _ => ?_)
  have hm : (minor A i 0).length = m + 1 := by
    rw [length_minor, hA]
    omega
  have h2 : det (minor A i 0) = detF (m + 1) (minor A i 0) := by
    rw [det, detF_congr (minor A i 0).length (m + 1) (minor A i 0) (le_refl _) (by omega)]
  rw [h2]

end MatrixMath

theorem IntD_lawful : IntD.Lawful := by
  constructor <;> intros <;> simp [IntD] <;> ring

/-! Quick sanity checks of the embedding on concrete inputs. -/

example : MatrixMath.det [[1, 2], [3, 4]] = -2 := by decide

example : MatrixMath.mul (MatrixMath.one 2) (MatrixMath.one 2) = MatrixMath.one 2 := by decide

example : PolynomialMath.add [1, 2] [5] = [6, 2] := by decide

example : PolynomialMath.mul [1, 1] [1, 1] = [1, 2, 1] := by decide

example : PolynomialMath.sub [4, 7] [4, 7] = [0, 0] := by decide

example : PolynomialMathR.add IntD [1, 2] [5] = some [6, 2] := by decide

example : PolynomialMathR.add IntD ([] : List Int) [] = none := by decide

example : PolynomialMathR.sub IntD [4, 7] [4, 7] = some [0, 0] := by decide

example : MatrixMath.charPoly [[2]] = [-2, 1] := by decide

example : MatrixMath.charPoly [[1, 0], [0, 1]] = [1, -2, 1] := by decide

example : Matrices.characteristicPolynomialZ 2 [[1, 0], [0, 1]] = some [1, -2, 1] := by decide

example : Matrices.characteristicPolynomialZ 3 [[1, 0, 0], [0, 1, 0], [0, 0, 1]] = none := by decide

example : PolynomialMath.fromStringSpec ("x^2 + 1") = [1, 0, 1] := by decide

/-! ## Supporting lemmas for the claims -/

theorem foldl_none_of_absorb {α β : Type} (step : Option β → α → Option β)
    (h : ∀ a, step none a = none) (l : List α) : l.foldl step none = none := by
  induction l with
  | nil => rfl
  | cons a t ih => rw [List.foldl_cons, h a]; exact ih

theorem charDetF_succ (nn fuel : Nat) (A : List (List (List Int))) :
    Matrices.charDetF nn (fuel + 1) A =
      if A.length ≤ 1 then (A[0]?).bind (fun r => r[0]?)
      else
        (List.range nn).foldl (fun f? i => do
            let f ← f?
            let row ← A[i]?
            let a ← row[0]?
            let dm ← Matrices.charDetF nn fuel (MatrixMath.minor A i 0)
            PolynomialMathR.add IntD f
              (PolynomialMathR.mul IntD (PolynomialMathR.mul IntD a dm) [IntD.int ((-1) ^ i)]))
          (some (PolynomialMathR.zero IntD)) := rfl

/-- On any matrix strictly smaller than the engine dimension but of size at
least 2, the inner determinant of `Matrices.characteristicPolynomial`
crashes: its loop reads row `A.length` of `A`. -/
theorem charDetF_small (nn fuel : Nat) (A : List (List (List Int)))
    (h2 : 2 ≤ A.length) (hlt : A.length < nn) :
    Matrices.charDetF nn (fuel + 1) A = none := by
  rw [charDetF_succ, if_neg (by omega)]
  obtain ⟨r, hr⟩ : ∃ r, nn = (A.length + 1) + r := ⟨nn - (A.length + 1), by omega⟩
  have hsplit : List.range nn =
      List.range (A.length + 1) ++ (List.range r).map (fun x => A.length + 1 + x) := by
    rw [hr, List.range_add]
  rw [hsplit, List.foldl_append]
  have h1 : (List.range (A.length + 1)).foldl (fun f? i => do
      let f ← f?
      let row ← A[i]?
      let a ← row[0]?
      let dm ← Matrices.charDetF nn fuel (MatrixMath.minor A i 0)
      PolynomialMathR.add IntD f
        (PolynomialMathR.mul IntD (PolynomialMathR.mul IntD a dm) [IntD.int ((-1) ^ i)]))
      (some (PolynomialMathR.zero IntD)) = none := by
    rw [List.range_succ, List.foldl_append]
    have hrow : A[A.length]? = none := List.getElem?_eq_none (le_refl _)
    cases ((List.range A.length).foldl (fun f? i => do
        let f ← f?
        let row ← A[i]?
        let a ← row[0]?
        let dm ← Matrices.charDetF nn fuel (MatrixMath.minor A i 0)
        PolynomialMathR.add IntD f
          (PolynomialMathR.mul IntD (PolynomialMathR.mul IntD a dm) [IntD.int ((-1) ^ i)]))
        (some (PolynomialMathR.zero IntD))) with
    | none => rfl
    | some f => simp [hrow]
  rw [h1]
  exact foldl_none_of_absorb _ (fun a => rfl) _

/-! ## The claims -/

/-- C1.  The claim holds for the static `MatrixMath.charPoly` (checked here
on the identity: a monic cubic whose value at 0 is `(-1)^3 · det`), but the
generic `Matrices.characteristicPolynomial` contradicts it — and its own
doc comment — for EVERY n ≥ 3 and every A: the inner determinant loops the
row index up to the engine dimension `this.n` on the (n−1)-sized minors and
throws reading past the end, so the call never returns a polynomial. -/
theorem C1_characteristicPolynomial :
    (∀ (n : Nat) (A : List (List Int)), 3 ≤ n →
      Matrices.characteristicPolynomialZ n A = none) ∧
    MatrixMath.charPoly [[1, 0, 0], [0, 1, 0], [0, 0, 1]] = [-1, 3, -3, 1] ∧
    MatrixMath.det [[1, 0, 0], [0, 1, 0], [0, 0, 1]] = 1 := by
  refine ⟨?_, by decide, by decide⟩
  intro n A h3
  show Matrices.charDetF n n _ = none
  obtain ⟨m, rfl⟩ : ∃ m, n = m + 3 := ⟨n - 3, by omega⟩
  rw [show m + 3 = (m + 2) + 1 from rfl, charDetF_succ,
    if_neg (by rw [length_mkMat]; omega)]
  rw [show m + 2 + 1 = (m + 2) + 1 from rfl, List.range_succ_eq_map, List.foldl_cons]
  have hdm : Matrices.charDetF (m + 2 + 1) (m + 2) (MatrixMath.minor (mkMat (m + 2 + 1)
      (fun i j =>
        (PolynomialMathR.sub IntD
          (if i = j then PolynomialMathR.x IntD 1 else PolynomialMathR.zero IntD)
          [ent A i j]).getD [])) 0 0) = none := by
    rw [show m + 2 = (m + 1) + 1 from rfl]
    refine charDetF_small _ _ _ ?_ ?_
    · rw [MatrixMath.length_minor, length_mkMat]; omega
    · rw [MatrixMath.length_minor, length_mkMat]; omega
  simp only [Option.bind_eq_bind, Option.some_bind,
    getElem?_mkMat (m + 2 + 1) _ 0 (by omega), hdm,
    List.getElem?_map, List.getElem?_range (by omega : 0 < m + 2 + 1),
    Option.map_some', Option.none_bind]
  apply foldl_none_of_absorb
  intro a
  rfl

/-- C1 witness: the failing input n = 3, A = I₃ of the bug, through the
general theorem. -/
theorem C1_characteristicPolynomial_witness :
    Matrices.characteristicPolynomialZ 3 [[1, 0, 0], [0, 1, 0], [0, 0, 1]] = none :=
  C1_characteristicPolynomial.1 3 [[1, 0, 0], [0, 1, 0], [0, 0, 1]] (by decide)

/-- C2.  At the spec's own test matrix A = [[0,1,3],[3,4,7],[8,1,9]] the
source returns the components in the order [P, L, U, D] — its doc comment
and the repo's test destructure [P, L, D, U] — and the trailing overwrite
`D[n-1][n-1] = oldpivot` stores the final pivot 58 where the Bareiss
identity needs `oldpivot·pivot = 174`.  Conjuncts: (1) the concrete value
returned; (2) with the documented labels (D = the diagonal component,
d = lcm(3,9,58) = 522) the cleared-denominator identity d·P·A =
L·(d·D⁻¹)·U FAILS; (3) with the positional labels of the test (third
component as D, d = lcm(3,3,58) = 174) it also FAILS, so the repo's LU
test fails; (4) restoring D[2][2] to 174 (d = lcm(3,9,174) = 522,
d·D⁻¹ = diag(174,58,3)) makes the identity hold exactly — the intended
behaviour. -/
theorem C2_luDecomposition :
    MatrixMath.luDecomposition [[0, 1, 3], [3, 4, 7], [8, 1, 9]] =
      some ([[0, 1, 0], [1, 0, 0], [0, 0, 1]],
            [[3, 0, 0], [0, 3, 0], [8, -29, 58]],
            [[3, 4, 7], [0, 3, 9], [0, 0, 58]],
            [[3, 0, 0], [0, 9, 0], [0, 0, 58]]) ∧
    MatrixMath.scale
        (MatrixMath.mul [[0, 1, 0], [1, 0, 0], [0, 0, 1]] [[0, 1, 3], [3, 4, 7], [8, 1, 9]])
        522 ≠
      MatrixMath.mul [[3, 0, 0], [0, 3, 0], [8, -29, 58]]
        (MatrixMath.mul [[174, 0, 0], [0, 58, 0], [0, 0, 9]]
          [[3, 4, 7], [0, 3, 9], [0, 0, 58]]) ∧
    MatrixMath.scale
        (MatrixMath.mul [[0, 1, 0], [1, 0, 0], [0, 0, 1]] [[0, 1, 3], [3, 4, 7], [8, 1, 9]])
        174 ≠
      MatrixMath.mul [[3, 0, 0], [0, 3, 0], [8, -29, 58]]
        (MatrixMath.mul [[58, 0, 0], [0, 58, 0], [0, 0, 3]]
          [[3, 0, 0], [0, 9, 0], [0, 0, 58]]) ∧
    MatrixMath.scale
        (MatrixMath.mul [[0, 1, 0], [1, 0, 0], [0, 0, 1]] [[0, 1, 3], [3, 4, 7], [8, 1, 9]])
        522 =
      MatrixMath.mul [[3, 0, 0], [0, 3, 0], [8, -29, 58]]
        (MatrixMath.mul [[174, 0, 0], [0, 58, 0], [0, 0, 3]]
          [[3, 4, 7], [0, 3, 9], [0, 0, 58]]) := by
  exact ⟨by decide, by decide, by decide, by decide⟩

/-- The cleared-denominator factors used in the LU check above are the
lcm values the repo's test computes from the diagonals. -/
theorem C2_lcm_check :
    BigIntMath.lcm (BigIntMath.lcm 3 9) 58 = 522 ∧
    BigIntMath.lcm (BigIntMath.lcm 3 3) 58 = 174 ∧
    BigIntMath.lcm (BigIntMath.lcm 3 9) 174 = 522 := by
  refine ⟨?_, ?_, ?_⟩ <;> rfl

/-- C9.  Both scalar constructors of the generic matrix engine return
undefined: `bint` builds the diagonal matrix but has no return statement,
and `int(k)` just forwards to `bint`. -/
theorem C9_int_bint (R : Domain JSVal) (n : Nat) (k : Int) :
    Matrices.int R n k = none ∧ Matrices.bint R n k = none :=
  ⟨rfl, rfl⟩

/-- C5 as stated is false: over the rationals (a coefficient ring whose
zero is the fraction [0n, 1n], not the bigint 0n) the 1×1 zero() matrix is
[[0n]], not [[D.zero()]]. -/
theorem C5_counterexample :
    Matrices.zero RationalsJS 1 ≠ [[RationalsJS.zero]] := by
  intro h
  have h1 : Matrices.zero RationalsJS 1 = [[JSVal.bint 0]] := rfl
  rw [h1] at h
  injection h with hrow _
  injection hrow with hv _
  exact JSVal.noConfusion hv

/-- C5 amended: `zero()` fills every entry with the bigint literal `0n`
(which equals `D.zero()` exactly when `D.zero()` is the bigint 0, as for
the integer ring), and `one()` has `D.one()` on the diagonal with the
literal `0n` — not `D.zero()` — elsewhere. -/
theorem C5_zero_one (R : Domain JSVal) (n i j : Nat) (hi : i < n) (hj : j < n) :
    ent (Matrices.zero R n) i j = JSVal.bint 0 ∧
    ent (Matrices.one R n) i j = (if i = j then R.one else JSVal.bint 0) :=
  ⟨ent_mkMat n _ i j hi hj, ent_mkMat n _ i j hi hj⟩

/-- C5 witness: the amended statement at the rationals, n = 2, entry
(0,1). -/
theorem C5_zero_one_witness :
    ent (Matrices.zero RationalsJS 2) 0 1 = JSVal.bint 0 ∧
    ent (Matrices.one RationalsJS 2) 0 1 = (if 0 = 1 then RationalsJS.one else JSVal.bint 0) :=
  C5_zero_one RationalsJS 2 0 1 (by decide) (by decide)

/-- C6.  `fromString` never returns the claimed values — the source throws
"unimplemented" on every input, so the repo's own polynomial test fails —
while the parsing algorithm the spec describes (embedded as
`fromStringSpec`) does produce exactly the claimed coefficient lists. -/
theorem C6_fromString :
    (PolynomialMath.fromString ("x^2 + 1") = none ∧
     PolynomialMath.fromString ("x^2 + x + 1") = none ∧
     PolynomialMath.fromString ("x^2 + 2*x + 1") = none ∧
     PolynomialMath.fromString ("3*x^2 - 2*x + 1") = none ∧
     PolynomialMath.fromString ("1") = none) ∧
    (PolynomialMath.fromStringSpec ("x^2 + 1") = [1, 0, 1] ∧
     PolynomialMath.fromStringSpec ("x^2 + x + 1") = [1, 1, 1] ∧
     PolynomialMath.fromStringSpec ("x^2 + 2*x + 1") = [1, 2, 1] ∧
     PolynomialMath.fromStringSpec ("3*x^2 - 2*x + 1") = [1, -2, 3] ∧
     PolynomialMath.fromStringSpec ("1") = [1]) :=
  ⟨⟨rfl, rfl, rfl, rfl, rfl⟩, by decide, by decide, by decide, by decide, by decide⟩

/-- Reducing a pair with non-zero denominator succeeds and lands in lowest
terms with a non-zero denominator. -/
theorem reduce_ok (a b : Int) (hb : b ≠ 0) :
    ∃ r, Rationals.reduce (a, b) = some r ∧ r.2 ≠ 0 ∧ Int.gcd r.1 r.2 = 1 := by
  have hd0 : Int.gcd a b ≠ 0 := by
    rw [Ne, Int.gcd_eq_zero_iff]
    rintro ⟨_, h⟩
    exact hb h
  have hdpos : 0 < Int.gcd a b := Nat.pos_of_ne_zero hd0
  have hdZ : (Int.gcd a b : Int) ≠ 0 := by exact_mod_cast hd0
  have hda : (Int.gcd a b : Int) ∣ a := Int.gcd_dvd_left
  have hdb : (Int.gcd a b : Int) ∣ b := Int.gcd_dvd_right
  refine ⟨(a.tdiv (Int.gcd a b), b.tdiv (Int.gcd a b)), ?_, ?_, ?_⟩
  · simp [Rationals.reduce, BigIntMath.gcd, hdZ]
  · show b.tdiv (Int.gcd a b) ≠ 0
    rw [Int.tdiv_eq_ediv_of_dvd hdb]
    intro h0
    have h1 := Int.ediv_mul_cancel hdb
    rw [h0] at h1
    exact hb (by simpa using h1.symm)
  · show Int.gcd (a.tdiv (Int.gcd a b)) (b.tdiv (Int.gcd a b)) = 1
    rw [Int.tdiv_eq_ediv_of_dvd hda, Int.tdiv_eq_ediv_of_dvd hdb]
    exact Int.gcd_div_gcd_div_gcd hdpos

/-- C7 fails as stated for `div`: dividing by the zero fraction — a legal
input whose denominator is the non-zero 1 — produces the pair (1, 0),
whose denominator is zero. -/
theorem C7_counterexample :
    Rationals.div (1, 1) (0, 1) = some (1, 0) := by decide

/-- C7 amended: with non-zero input denominators, add/sub/mul/scale always
return a pair in lowest terms with non-zero denominator; div does so
provided the divisor's NUMERATOR is also non-zero (otherwise the result
denominator `x1·y0` is zero). -/
theorem C7_fraction (x y : Int × Int) (hx : x.2 ≠ 0) (hy : y.2 ≠ 0) :
    (∃ r, Rationals.add x y = some r ∧ r.2 ≠ 0 ∧ Int.gcd r.1 r.2 = 1) ∧
    (∃ r, Rationals.sub x y = some r ∧ r.2 ≠ 0 ∧ Int.gcd r.1 r.2 = 1) ∧
    (∃ r, Rationals.mul x y = some r ∧ r.2 ≠ 0 ∧ Int.gcd r.1 r.2 = 1) ∧
    (∀ k : Int, ∃ r, Rationals.scale k x = some r ∧ r.2 ≠ 0 ∧ Int.gcd r.1 r.2 = 1) ∧
    (y.1 ≠ 0 → ∃ r, Rationals.div x y = some r ∧ r.2 ≠ 0 ∧ Int.gcd r.1 r.2 = 1) := by
  refine ⟨?_, ?_, ?_, ?_, ?_⟩
  · exact reduce_ok _ _ (mul_ne_zero hx hy)
  · exact reduce_ok _ _ (mul_ne_zero hx hy)
  · exact reduce_ok _ _ (mul_ne_zero hx hy)
  · intro k
    exact reduce_ok _ _ hx
  · intro hy1
    exact reduce_ok _ _ (mul_ne_zero hx hy1)

/-- C7 witness: the amended statement at x = 1/2, y = 2/3. -/
theorem C7_fraction_witness :
    (∃ r, Rationals.add (1, 2) (2, 3) = some r ∧ r.2 ≠ 0 ∧ Int.gcd r.1 r.2 = 1) ∧
    (∃ r, Rationals.sub (1, 2) (2, 3) = some r ∧ r.2 ≠ 0 ∧ Int.gcd r.1 r.2 = 1) ∧
    (∃ r, Rationals.mul (1, 2) (2, 3) = some r ∧ r.2 ≠ 0 ∧ Int.gcd r.1 r.2 = 1) ∧
    (∀ k : Int, ∃ r, Rationals.scale k (1, 2) = some r ∧ r.2 ≠ 0 ∧ Int.gcd r.1 r.2 = 1) ∧
    ((2 : Int) ≠ 0 → ∃ r, Rationals.div (1, 2) (2, 3) = some r ∧ r.2 ≠ 0 ∧ Int.gcd r.1 r.2 = 1) :=
  C7_fraction (1, 2) (2, 3) (by decide) (by decide)

/-- Behaviour of the ordered add body when the first operand is at least
as long and non-empty. -/
theorem addGe_spec {E : Type} (R : Domain E) (f g : List E)
    (hlen : g.length ≤ f.length) (hf : f.length ≠ 0) :
    ∃ s, PolynomialMathR.addGe R f g = some s ∧ s.length = f.length ∧
      (∀ i, i < g.length → s.getD i R.zero = R.add (f.getD i R.zero) (g.getD i R.zero)) ∧
      (∀ i, g.length ≤ i → i < f.length → s.getD i R.zero = f.getD i R.zero) := by
  refine ⟨List.zipWith R.add f g ++ f.drop g.length, ?_, ?_, ?_, ?_⟩
  · rw [PolynomialMathR.addGe, if_neg hf]
  · rw [List.length_append, List.length_zipWith, List.length_drop]
    omega
  · intro i hi
    have hif : i < f.length := lt_of_lt_of_le hi hlen
    rw [List.getD_eq_getElem?_getD, List.getElem?_append,
      if_pos (by rw [List.length_zipWith]; omega), List.getElem?_zipWith]
    rw [List.getD_eq_getElem?_getD f, List.getD_eq_getElem?_getD g]
    rcases List.getElem?_eq_some_iff.mpr ⟨hif, rfl⟩ with _
    have hfi : f[i]? = some f[i] := List.getElem?_eq_getElem hif
    have hgi : g[i]? = some g[i] := List.getElem?_eq_getElem hi
    rw [hfi, hgi]
    rfl
  · intro i hgi hif
    rw [List.getD_eq_getElem?_getD, List.getElem?_append,
      if_neg (by rw [List.length_zipWith]; omega), List.getElem?_drop,
      List.getD_eq_getElem?_getD]
    have : List.length (List.zipWith R.add f g) = g.length := by
      rw [List.length_zipWith]; omega
    rw [this]
    have : g.length + (i - g.length) = i := by omega
    rw [this]

/-- C4 fails as stated: on two empty polynomials — the generic engine's
canonical zero — `add` evaluates `new Array(-1)` and throws instead of
returning the (empty) element-wise sum. -/
theorem C4_counterexample :
    PolynomialMathR.add IntD ([] : List Int) [] = none ∧
    PolynomialMathR.add IntD ([] : List Int) [] ≠
      some (List.replicate (max (List.length ([] : List Int)) (List.length ([] : List Int))) 0) :=
  ⟨rfl, by decide⟩

/-- C4 amended: for operands that are not both empty (and a commutative
`D.add`, as the contract demands), `add` returns the element-wise sum over
the shared index range with the longer operand's tail copied through, of
length `max(deg f, deg g) + 1`; the top coefficient of the longer operand
is never dropped.  On two empty operands the source throws. -/
theorem C4_add {E : Type} (R : Domain E) (f g : List E)
    (hne : ¬(f = [] ∧ g = []))
    (hcomm : ∀ a b, R.add a b = R.add b a) :
    ∃ s, PolynomialMathR.add R f g = some s ∧
      (s.length : Int) = max (PolynomialMathR.deg R f) (PolynomialMathR.deg R g) + 1 ∧
      (∀ i, i < f.length → i < g.length →
        s.getD i R.zero = R.add (f.getD i R.zero) (g.getD i R.zero)) ∧
      (∀ i, g.length ≤ i → i < f.length → s.getD i R.zero = f.getD i R.zero) ∧
      (∀ i, f.length ≤ i → i < g.length → s.getD i R.zero = g.getD i R.zero) := by
  have hlen : ¬(f.length = 0 ∧ g.length = 0) := by
    rintro ⟨h1, h2⟩
    exact hne ⟨List.length_eq_zero.mp h1, List.length_eq_zero.mp h2⟩
  rcases Nat.lt_or_ge f.length g.length with hlt | hge
  · obtain ⟨s, hs, hsl, hover, htail⟩ :=
      addGe_spec R g f (Nat.le_of_lt hlt) (by omega)
    refine ⟨s, ?_, ?_, ?_, ?_, ?_⟩
    · rw [PolynomialMathR.add, if_pos hlt]
      exact hs
    · rw [hsl, PolynomialMathR.deg, PolynomialMathR.deg]
      omega
    · intro i hif hig
      rw [hover i hif, hcomm]
    · intro i hgi hif
      omega
    · intro i hfi hig
      exact htail i hfi hig
  · obtain ⟨s, hs, hsl, hover, htail⟩ := addGe_spec R f g hge (by omega)
    refine ⟨s, ?_, ?_, ?_, ?_, ?_⟩
    · rw [PolynomialMathR.add, if_neg (by omega)]
      exact hs
    · rw [hsl, PolynomialMathR.deg, PolynomialMathR.deg]
      omega
    · intro i hif hig
      exact hover i hig
    · intro i hgi hif
      exact htail i hgi hif
    · intro i hfi hig
      omega

/-- C4 witness: the amended statement over the integers with f = [1,2,3],
g = [5,6] (degrees differ; the top coefficient 3 is copied through). -/
theorem C4_add_witness :
    ∃ s, PolynomialMathR.add IntD [1, 2, 3] [5, 6] = some s ∧
      (s.length : Int) = max (PolynomialMathR.deg IntD [1, 2, 3]) (PolynomialMathR.deg IntD [5, 6]) + 1 ∧
      (∀ i, i < List.length [(1 : Int), 2, 3] → i < List.length [(5 : Int), 6] →
        s.getD i IntD.zero = IntD.add (List.getD [1, 2, 3] i IntD.zero) (List.getD [5, 6] i IntD.zero)) ∧
      (∀ i, List.length [(5 : Int), 6] ≤ i → i < List.length [(1 : Int), 2, 3] →
        s.getD i IntD.zero = List.getD [1, 2, 3] i IntD.zero) ∧
      (∀ i, List.length [(1 : Int), 2, 3] ≤ i → i < List.length [(5 : Int), 6] →
        s.getD i IntD.zero = List.getD [5, 6] i IntD.zero) :=
  C4_add IntD [1, 2, 3] [5, 6] (by simp) (fun a b => Int.add_comm a b)

/-- A lawful domain sends `a + (0 - 1)·a` to zero. -/
theorem Domain.Lawful.add_mul_subzo {E : Type} {R : Domain E} (hR : R.Lawful) (a : E) :
    R.add a (R.mul (R.sub R.zero R.one) a) = R.zero := by
  have h1 : R.add (R.sub R.zero R.one) R.one = R.zero := hR.sub_add_cancel R.zero R.one
  calc R.add a (R.mul (R.sub R.zero R.one) a)
      = R.add (R.mul R.one a) (R.mul (R.sub R.zero R.one) a) := by rw [hR.one_mul]
    _ = R.mul (R.add R.one (R.sub R.zero R.one)) a := (hR.right_distrib _ _ _).symm
    _ = R.mul (R.add (R.sub R.zero R.one) R.one) a := by rw [hR.add_comm]
    _ = R.mul R.zero a := by rw [h1]
    _ = R.zero := hR.zero_mul a

/-- C10.  `sub(f, f)` over a lawful coefficient domain returns the
length-`deg f + 1` all-`D.zero()` sequence: trailing zeroes are not
trimmed, the result differs from the canonical empty zero polynomial, and
its reported degree is `deg f`, not −1. -/
theorem C10_sub_no_trim {E : Type} (R : Domain E) (hR : R.Lawful)
    (f : List E) (hf : f ≠ []) :
    ∃ s, PolynomialMathR.sub R f f = some s ∧
      s.length = f.length ∧
      (∀ e ∈ s, e = R.zero) ∧
      s ≠ PolynomialMathR.zero R ∧
      PolynomialMathR.deg R s = PolynomialMathR.deg R f ∧
      PolynomialMathR.deg R s ≠ -1 := by
  have hflen : f.length ≠ 0 := fun h => hf (List.length_eq_zero.mp h)
  have hscale : (PolynomialMathR.scale R f (R.sub R.zero R.one)).length = f.length :=
    List.length_map _ _
  refine ⟨List.zipWith R.add f (PolynomialMathR.scale R f (R.sub R.zero R.one)), ?_, ?_, ?_, ?_, ?_, ?_⟩
  · rw [PolynomialMathR.sub, PolynomialMathR.add, if_neg (by omega),
      PolynomialMathR.addGe, if_neg hflen]
    simp only [PolynomialMathR.scale, List.length_map, List.drop_length,
      List.append_nil]
  · rw [List.length_zipWith, hscale]
    omega
  · intro e he
    rw [PolynomialMathR.scale, List.zipWith_map_right, List.zipWith_same] at he
    obtain ⟨a, _, ha⟩ := List.mem_map.mp he
    rw [← ha]
    exact hR.add_mul_subzo a
  · intro h
    have hlen2 := congrArg List.length h
    simp only [List.length_zipWith, hscale, Nat.min_self, PolynomialMathR.zero,
      List.length_nil] at hlen2
    omega
  · rw [PolynomialMathR.deg, PolynomialMathR.deg, List.length_zipWith, hscale]
    omega
  · rw [PolynomialMathR.deg, List.length_zipWith, hscale]
    omega

/-- C10 witness: the integers with f = [4, 7]. -/
theorem C10_sub_no_trim_witness :
    ∃ s, PolynomialMathR.sub IntD [4, 7] [4, 7] = some s ∧
      s.length = List.length [(4 : Int), 7] ∧
      (∀ e ∈ s, e = IntD.zero) ∧
      s ≠ PolynomialMathR.zero IntD ∧
      PolynomialMathR.deg IntD s = PolynomialMathR.deg IntD [4, 7] ∧
      PolynomialMathR.deg IntD s ≠ -1 :=
  C10_sub_no_trim IntD IntD_lawful [4, 7] (by simp)

theorem toMat_apply (n : Nat) (A : List (List Int)) (i j : Fin n) :
    toMat n A i j = ent A (i : Nat) (j : Nat) := rfl

theorem squareMat_mkMat (n : Nat) (f : Nat → Nat → Int) :
    SquareMat n (mkMat n f) := by
  refine ⟨length_mkMat n f, ?_⟩
  intro r hr
  rw [mkMat] at hr
  obtain ⟨i, _, rfl⟩ := List.mem_map.mp hr
  simp

theorem squareMat_ext {n : Nat} {A B : List (List Int)}
    (hA : SquareMat n A) (hB : SquareMat n B) (h : toMat n A = toMat n B) :
    A = B := by
  have hent : ∀ i j, i < n → j < n → ent A i j = ent B i j := by
    intro i j hi hj
    have := congrFun (congrFun h ⟨i, hi⟩) ⟨j, hj⟩
    simpa [toMat_apply] using this
  apply List.ext_getElem (hA.1.trans hB.1.symm)
  intro i hiA hiB
  have hrowA : A[i].length = n := hA.2 _ (List.getElem_mem hiA)
  have hrowB : B[i].length = n := hB.2 _ (List.getElem_mem hiB)
  apply List.ext_getElem (hrowA.trans hrowB.symm)
  intro j hjA hjB
  have hin : i < n := by rw [← hA.1]; exact hiA
  have hjn : j < n := by rw [← hrowA]; exact hjA
  have h1 : ent A i j = A[i][j] := by
    rw [ent, List.getD_eq_getElem?_getD A i [], List.getElem?_eq_getElem hiA,
      Option.getD_some, List.getD_eq_getElem?_getD, List.getElem?_eq_getElem hjA,
      Option.getD_some]
  have h2 : ent B i j = B[i][j] := by
    rw [ent, List.getD_eq_getElem?_getD B i [], List.getElem?_eq_getElem hiB,
      Option.getD_some, List.getD_eq_getElem?_getD, List.getElem?_eq_getElem hjB,
      Option.getD_some]
  rw [← h1, ← h2]
  exact hent i j hin hjn

theorem toMat_mul (A B : List (List Int)) (n : Nat) (hA : A.length = n) :
    toMat n (MatrixMath.mul A B) = toMat n A * toMat n B := by
  ext i j
  rw [Matrix.mul_apply, toMat_apply, MatrixMath.mul, hA,
    ent_mkMat n _ _ _ i.isLt j.isLt]
  rw [← Fin.sum_univ_eq_sum_range (fun k => ent A (i : Nat) k * ent B k (j : Nat)) n]
  rfl

theorem toMat_one (n : Nat) : toMat n (MatrixMath.one n) = 1 := by
  ext i j
  rw [toMat_apply, MatrixMath.one, ent_mkMat n _ _ _ i.isLt j.isLt, Matrix.one_apply]
  simp [Fin.val_eq_val]

theorem toMat_scale (A : List (List Int)) (k : Int) (n : Nat) (hA : A.length = n) :
    toMat n (MatrixMath.scale A k) = k • toMat n A := by
  ext i j
  rw [Matrix.smul_apply, toMat_apply, MatrixMath.scale, hA,
    ent_mkMat n _ _ _ i.isLt j.isLt, toMat_apply, smul_eq_mul]

theorem toMat_transpose (A : List (List Int)) (n : Nat) (hA : A.length = n) :
    toMat n (MatrixMath.transpose A) = (toMat n A).transpose := by
  ext i j
  rw [Matrix.transpose_apply, toMat_apply, MatrixMath.transpose, hA,
    ent_mkMat n _ _ _ i.isLt j.isLt, toMat_apply]

theorem coe_succAbove {n : Nat} (i : Fin (n + 1)) (r : Fin n) :
    ((i.succAbove r : Fin (n + 1)) : Nat) =
      if (i : Nat) ≤ (r : Nat) then (r : Nat) + 1 else (r : Nat) := by
  rcases Nat.lt_or_ge (r : Nat) (i : Nat) with h | h
  · rw [Fin.succAbove_of_castSucc_lt _ _ (by simpa [Fin.lt_def] using h)]
    simp [Nat.not_le.mpr h]
  · rw [Fin.succAbove_of_le_castSucc _ _ (by simpa [Fin.le_def] using h)]
    simp [h]

theorem toMat_minor (A : List (List Int)) (n : Nat) (hA : A.length = n + 1)
    (i j : Fin (n + 1)) :
    toMat n (MatrixMath.minor A (i : Nat) (j : Nat)) =
      (toMat (n + 1) A).submatrix i.succAbove j.succAbove := by
  ext r c
  rw [Matrix.submatrix_apply, toMat_apply, MatrixMath.minor, hA,
    Nat.add_sub_cancel, ent_mkMat n _ _ _ r.isLt c.isLt, toMat_apply,
    coe_succAbove i r, coe_succAbove j c]

theorem det_toMat (n : Nat) :
    ∀ A : List (List Int), A.length = n + 1 →
      MatrixMath.det A = (toMat (n + 1) A).det := by
  induction n with
  | zero =>
    intro A hA
    have h1 : MatrixMath.det A = MatrixMath.detF (0 + 1) A := by
      rw [MatrixMath.det, hA]
    rw [h1, MatrixMath.detF_succ, if_pos hA, Matrix.det_fin_one]
    rfl
  | succ m ih =>
    intro A hA
    rw [MatrixMath.det_expand A m hA, Matrix.det_succ_column_zero, hA,
      ← Fin.sum_univ_eq_sum_range
        (fun i => ent A i 0 * MatrixMath.det (MatrixMath.minor A i 0) * (-1) ^ i) (m + 2)]
    refine Finset.sum_congr rfl (fun i _ => ?_)
    have hm : (MatrixMath.minor A (i : Nat) 0).length = m + 1 := by
      rw [MatrixMath.length_minor, hA]
      omega
    have hdet : MatrixMath.det (MatrixMath.minor A (i : Nat) 0) =
        ((toMat (m + 2) A).submatrix i.succAbove Fin.succ).det := by
      rw [ih _ hm]
      have h0 : toMat (m + 1) (MatrixMath.minor A (i : Nat) 0) =
          (toMat (m + 2) A).submatrix i.succAbove ((0 : Fin (m + 2)).succAbove) :=
        toMat_minor A (m + 1) hA i 0
      rw [h0]
      have hz : ((0 : Fin (m + 2)).succAbove : Fin (m + 1) → Fin (m + 2)) = Fin.succ :=
        funext (fun c => Fin.zero_succAbove c)
      rw [hz]
    rw [hdet]
    have hAa : (toMat (m + 1 + 1) A) i 0 = ent A (i : Nat) 0 := rfl
    rw [hAa]
    ring

/-- The adjugate entry as a signed minor determinant (cofactor
expansion of `Matrix.adjugate_apply` along the updated row). -/
theorem adjugate_entry (n : Nat) (M : Matrix (Fin (n + 1)) (Fin (n + 1)) Int)
    (i j : Fin (n + 1)) :
    M.adjugate i j =
      (-1) ^ ((i : Nat) + (j : Nat)) * (M.submatrix j.succAbove i.succAbove).det := by
  rw [Matrix.adjugate_apply, Matrix.det_succ_row _ j]
  rw [Finset.sum_eq_single i]
  · rw [Matrix.updateRow_self, Pi.single_eq_same, Matrix.submatrix_updateRow_succAbove]
    rw [Nat.add_comm (j : Nat) (i : Nat)]
    ring
  · intro c _ hc
    rw [Matrix.updateRow_self, Pi.single_eq_of_ne hc]
    ring
  · intro hmem
    exact absurd (Finset.mem_univ i) hmem

/-- The list cofactor matrix is the transpose of the Mathlib adjugate. -/
theorem toMat_cofactor (n : Nat) (A : List (List Int)) (hA : A.length = n + 2) :
    toMat (n + 2) (MatrixMath.cofactor A) = ((toMat (n + 2) A).adjugate).transpose := by
  ext i j
  rw [Matrix.transpose_apply, adjugate_entry (n + 1) _ j i, toMat_apply,
    MatrixMath.cofactor, hA, ent_mkMat _ _ _ _ i.isLt j.isLt]
  have hm : (MatrixMath.minor A (i : Nat) (j : Nat)).length = n + 1 := by
    rw [MatrixMath.length_minor, hA]
    omega
  have hdet : MatrixMath.det (MatrixMath.minor A (i : Nat) (j : Nat)) =
      ((toMat (n + 2) A).submatrix i.succAbove j.succAbove).det := by
    rw [det_toMat n _ hm, toMat_minor A (n + 1) hA i j]
  rw [hdet, Nat.add_comm (j : Nat) (i : Nat)]
  ring

theorem squareMat_mul (n : Nat) (A B : List (List Int)) (hA : A.length = n) :
    SquareMat n (MatrixMath.mul A B) := by
  rw [MatrixMath.mul, hA]
  exact squareMat_mkMat n _

theorem squareMat_scale (n : Nat) (A : List (List Int)) (k : Int) (hA : A.length = n) :
    SquareMat n (MatrixMath.scale A k) := by
  rw [MatrixMath.scale, hA]
  exact squareMat_mkMat n _

theorem squareMat_transpose (n : Nat) (A : List (List Int)) (hA : A.length = n) :
    SquareMat n (MatrixMath.transpose A) := by
  rw [MatrixMath.transpose, hA]
  exact squareMat_mkMat n _

theorem squareMat_cofactor (n : Nat) (A : List (List Int)) (hA : A.length = n) :
    SquareMat n (MatrixMath.cofactor A) := by
  rw [MatrixMath.cofactor, hA]
  exact squareMat_mkMat n _

theorem squareMat_one (n : Nat) : SquareMat n (MatrixMath.one n) :=
  squareMat_mkMat n _

/-- C8.  Matrix `mul` of the integer engine is associative on n×n
matrices, and it is not commutative: the spec's 2×2 nilpotent pair is a
counterexample. -/
theorem C8_mul_assoc_not_comm :
    (∀ (n : Nat) (A B C : List (List Int)), SquareMat n A → SquareMat n B →
      SquareMat n C →
      MatrixMath.mul (MatrixMath.mul A B) C = MatrixMath.mul A (MatrixMath.mul B C)) ∧
    MatrixMath.mul [[0, 1], [0, 0]] [[0, 0], [1, 0]] ≠
      MatrixMath.mul [[0, 0], [1, 0]] [[0, 1], [0, 0]] := by
  constructor
  · intro n A B C hA hB hC
    have hAB : (MatrixMath.mul A B).length = n := by
      rw [MatrixMath.mul, length_mkMat, hA.1]
    have hBC : (MatrixMath.mul B C).length = n := by
      rw [MatrixMath.mul, length_mkMat, hB.1]
    refine squareMat_ext (squareMat_mul n _ C hAB) (squareMat_mul n A _ hA.1) ?_
    rw [toMat_mul _ C n hAB, toMat_mul A B n hA.1,
      toMat_mul A _ n hA.1, toMat_mul B C n hB.1]
    exact Matrix.mul_assoc _ _ _
  · decide

/-- C8 witness: associativity applied at three concrete 2×2 integer
matrices. -/
theorem C8_mul_witness :
    MatrixMath.mul (MatrixMath.mul [[1, 1], [0, 1]] [[2, 0], [1, 3]]) [[0, 1], [1, 0]] =
      MatrixMath.mul [[1, 1], [0, 1]] (MatrixMath.mul [[2, 0], [1, 3]] [[0, 1], [1, 0]]) :=
  C8_mul_assoc_not_comm.1 2 [[1, 1], [0, 1]] [[2, 0], [1, 3]] [[0, 1], [1, 0]]
    ⟨rfl, by decide⟩ ⟨rfl, by decide⟩ ⟨rfl, by decide⟩

/-- C3 fails as stated at n = 1: `det([[1]]) = 1` is a unit, yet
`inverse([[1]]) = [[0]]` (the cofactor of a 1×1 matrix is `det` of the
empty matrix, which the recursion returns as 0 instead of 1), so
`mul(A, inverse(A))` is the zero matrix, not `one(1)`. -/
theorem C3_counterexample :
    MatrixMath.det [[(1 : Int)]] = 1 ∧
    MatrixMath.inverse [[(1 : Int)]] = some [[0]] ∧
    MatrixMath.mul [[(1 : Int)]] [[0]] ≠ MatrixMath.one 1 := by
  refine ⟨by decide, by decide, by decide⟩

/-- C3 amended: for n ≥ 2 the claim holds — for every n×n integer matrix
with determinant ±1, `mul(A, inverse(A))` is the identity and
`inverse(inverse(A)) = A`. -/
theorem C3_inverse (n : Nat) (A : List (List Int)) (hn : 2 ≤ n) (hA : SquareMat n A)
    (hd : MatrixMath.det A = 1 ∨ MatrixMath.det A = -1) :
    ∃ B, MatrixMath.inverse A = some B ∧ MatrixMath.mul A B = MatrixMath.one n ∧
      MatrixMath.inverse B = some A := by
  obtain ⟨m, rfl⟩ : ∃ m, n = m + 2 := ⟨n - 2, by omega⟩
  have hlen : A.length = m + 2 := hA.1
  have hdetM : (toMat (m + 2) A).det = MatrixMath.det A :=
    (det_toMat (m + 1) A hlen).symm
  have hdd : MatrixMath.det A * MatrixMath.det A = 1 := by
    rcases hd with h | h <;> rw [h] <;> norm_num
  have hinvA : MatrixMath.inverse A =
      some (MatrixMath.transpose (MatrixMath.scale (MatrixMath.cofactor A) (MatrixMath.det A))) := by
    rw [MatrixMath.inverse, if_pos hd]
  set B := MatrixMath.transpose (MatrixMath.scale (MatrixMath.cofactor A) (MatrixMath.det A)) with hB
  have hcofLen : (MatrixMath.cofactor A).length = m + 2 := by
    rw [MatrixMath.cofactor, length_mkMat, hlen]
  have hscaleLen : (MatrixMath.scale (MatrixMath.cofactor A) (MatrixMath.det A)).length = m + 2 := by
    rw [MatrixMath.scale, length_mkMat, hcofLen]
  have hBsq : SquareMat (m + 2) B := by
    rw [hB]
    exact squareMat_transpose _ _ hscaleLen
  have hBlen : B.length = m + 2 := hBsq.1
  have htB : toMat (m + 2) B = MatrixMath.det A • (toMat (m + 2) A).adjugate := by
    rw [hB, toMat_transpose _ _ hscaleLen, toMat_scale _ _ _ hcofLen,
      toMat_cofactor m A hlen, Matrix.transpose_smul, Matrix.transpose_transpose]
  have h1 : MatrixMath.mul A B = MatrixMath.one (m + 2) := by
    refine squareMat_ext (squareMat_mul _ A B hlen) (squareMat_one _) ?_
    rw [toMat_mul A B _ hlen, toMat_one, htB, mul_smul_comm,
      Matrix.mul_adjugate, hdetM, smul_smul, hdd, one_smul]
  have hdetB : MatrixMath.det B = MatrixMath.det A := by
    rw [det_toMat (m + 1) B hBlen, htB, Matrix.det_smul, Matrix.det_adjugate,
      hdetM, Fintype.card_fin]
    rcases hd with h | h
    · rw [h]
      simp
    · rw [h]
      have e1 : (m + 2) + (m + 2 - 1) = 2 * (m + 1) + 1 := by omega
      rw [← pow_add, e1, pow_succ, pow_mul]
      norm_num
  have hinvB : MatrixMath.inverse B =
      some (MatrixMath.transpose (MatrixMath.scale (MatrixMath.cofactor B) (MatrixMath.det B))) := by
    rw [MatrixMath.inverse, if_pos (by rw [hdetB]; exact hd)]
  set C := MatrixMath.transpose (MatrixMath.scale (MatrixMath.cofactor B) (MatrixMath.det B)) with hC
  have hcofBLen : (MatrixMath.cofactor B).length = m + 2 := by
    rw [MatrixMath.cofactor, length_mkMat, hBlen]
  have hscaleBLen : (MatrixMath.scale (MatrixMath.cofactor B) (MatrixMath.det B)).length = m + 2 := by
    rw [MatrixMath.scale, length_mkMat, hcofBLen]
  have hCsq : SquareMat (m + 2) C := by
    rw [hC]
    exact squareMat_transpose _ _ hscaleBLen
  have htC : toMat (m + 2) C = MatrixMath.det B • (toMat (m + 2) B).adjugate := by
    rw [hC, toMat_transpose _ _ hscaleBLen, toMat_scale _ _ _ hcofBLen,
      toMat_cofactor m B hBlen, Matrix.transpose_smul, Matrix.transpose_transpose]
  have hCA : C = A := by
    refine squareMat_ext hCsq hA ?_
    rw [htC, hdetB, htB, Matrix.adjugate_smul,
      Matrix.adjugate_adjugate _ (by rw [Fintype.card_fin]; omega),
      hdetM, Fintype.card_fin, smul_smul, smul_smul]
    rcases hd with h | h
    · rw [h]
      simp
    · rw [h]
      have e1 : m + 2 - 1 = m + 1 := by omega
      have e2 : m + 2 - 2 = m := by omega
      rw [e1, e2]
      have e3 : (-1 : Int) * (-1) ^ (m + 1) * (-1) ^ m = 1 := by
        rw [mul_assoc, ← pow_add, show (m + 1) + m = 2 * m + 1 by omega,
          pow_succ, pow_mul]
        norm_num
      rw [e3, one_smul]
  refine ⟨B, hinvA, h1, ?_⟩
  rw [hinvB]
  exact congrArg some hCA

/-- C3 witness: the amended statement at the 2×2 unipotent matrix. -/
theorem C3_inverse_witness :
    ∃ B, MatrixMath.inverse [[1, 1], [0, 1]] = some B ∧
      MatrixMath.mul [[1, 1], [0, 1]] B = MatrixMath.one 2 ∧
      MatrixMath.inverse B = some [[1, 1], [0, 1]] :=
  C3_inverse 2 [[1, 1], [0, 1]] (by decide) ⟨rfl, by decide⟩ (Or.inl (by decide))
